import Mathlib

/-!
Shallow embedding of the spreadsheet-like table component (column-types
module, columns module and the DataTable component) together with proofs
of the spec's claims about it.

The embedding models:
 - the closed enumeration of column types, their display labels and
   per-type default values (column-types module);
 - the table model: an ordered list of column configurations plus a list
   of rows, where a row is a JavaScript object mapped here to an
   association list from string keys to values;
 - the mutation operations of the DataTable component: dialog submit for
   edit (rename) and insert, quick-add, duplicate, delete column, hide
   column, add row, delete selected rows, cell change, and the tri-state
   sort toggle;
 - the footer aggregation (sum / average / median) over rationals, and
   the phone branch of the cell formatter.

JavaScript numbers are modelled as rationals; the decimal rendering of a
number by JavaScript String conversion is abstracted by the canonical
rational representation (no claim depends on the text of a rendered
number).  JavaScript null and undefined are collapsed into a single null
value, which is adequate here because the code only distinguishes them
through the loose equality value == null and the nullish operator, both
of which treat them alike.
-/

/-- The closed enumeration of column types (COLUMN_TYPES in the
column-types module). -/
inductive ColumnType where
  | text
  | long_text
  | checkbox
  | select
  | date
  | number
  | phone
  | email
  | currency
  | percent
deriving DecidableEq, Repr

/-- Display labels of the column types (COLUMN_TYPE_LABELS). -/
def COLUMN_TYPE_LABELS : ColumnType → String
  | .text => "Text"
  | .long_text => "Long text"
  | .checkbox => "Checkbox"
  | .select => "Select"
  | .date => "Date"
  | .number => "Number"
  | .phone => "Phone number"
  | .email => "Email"
  | .currency => "Currency"
  | .percent => "Percent"

/-- An untyped cell value.  JavaScript null and undefined are collapsed
into the single constructor null; number rendering is abstracted (see the
module comment). -/
inductive Value where
  | null : Value
  | str : String → Value
  | bool : Bool → Value
  | num : ℚ → Value
deriving DecidableEq, Repr

/-- JavaScript String conversion of a value.  The rendering of a number
is abstracted by the canonical rational representation. -/
def toStringJS : Value → String
  | .null => "null"
  | .str s => s
  | .bool b => if b then "true" else "false"
  | .num q => toString q

/-- The nullish-coalescing operator a ?? d applied to an optional lookup
result: absent entries (undefined) and null entries both fall back to
the default. -/
def jsNullish : Option Value → Value → Value
  | none, d => d
  | some .null, d => d
  | some v, _ => v

/-- JavaScript String.prototype.trim, modelled as dropping whitespace
characters from both ends. -/
def jsTrim (s : String) : String :=
  ⟨((s.data.dropWhile Char.isWhitespace).reverse.dropWhile Char.isWhitespace).reverse⟩

/-- A row of the table: a JavaScript object from column keys to values,
modelled as an association list in property order
(Row = Record of string to unknown in the columns module). -/
abbrev Row := List (String × Value)

/-- Property read row[k], none when the property is absent.  A
JavaScript object holds each key at most once, so reading the first
matching entry of the association list is faithful. -/
def objGet : Row → String → Option Value
  | [], _ => none
  | p :: ps, k => if p.1 = k then some p.2 else objGet ps k

/-- Whether the object has an own property named k. -/
def hasKey (row : Row) (k : String) : Prop :=
  k ∈ row.map (fun p => p.1)

instance (row : Row) (k : String) : Decidable (hasKey row k) := by
  unfold hasKey; infer_instance

/-- Property write row[k] = v (also the spread update): an existing
property is updated in place at its position, a new one is appended in
property order. -/
def objSet : Row → String → Value → Row
  | [], k, v => [(k, v)]
  | p :: ps, k, v => if p.1 = k then (k, v) :: ps else p :: objSet ps k v

/-- Property removal, as performed by rest destructuring that excludes
the property named k. -/
def objDelete (row : Row) (k : String) : Row :=
  row.filter (fun p => ¬ p.1 = k)

/-- A column configuration (ColumnConfig in the column-types module):
unique key doubling as display name, type, and options that are only
present for select columns. -/
structure ColumnConfig where
  key : String
  type : ColumnType
  options : Option (List String)
deriving DecidableEq, Repr

/-- Which side of the anchor a new column is inserted on. -/
inductive Side where
  | left
  | right
deriving DecidableEq, Repr

/-- The state of the DataTable that the structural mutations touch:
the ordered column configurations, the rows, and the column-visibility
record (a JavaScript object from key to boolean, as an association
list). -/
structure Model where
  columns : List ColumnConfig
  rows : List Row
  visibility : List (String × Bool)
deriving DecidableEq, Repr

/-- The ordered list of column keys (the columnKeys memo). -/
def columnKeys (m : Model) : List String :=
  m.columns.map (fun c => c.key)

/-- Per-type default value (getDefaultValue): false for checkbox, the
empty string for number, currency, percent and every other type. -/
def getDefaultValue : ColumnType → Value
  | .checkbox => .bool false
  | .number => .str ""
  | .currency => .str ""
  | .percent => .str ""
  | _ => .str ""

/-- The options field stored on a submitted column:
dialogType === "select" ? dialogOptions : undefined. -/
def submittedOptions (ty : ColumnType) (opts : List String) : Option (List String) :=
  if ty = .select then some opts else none

/-- handleDialogSubmit for a pending edit action on oldKey, with the
dialog holding input, ty and opts: trims the name, rejects an empty or
colliding name, otherwise rewrites the column in place and, when the key
changed, moves every row's value from the old key to the new key. -/
def handleDialogSubmitEdit (m : Model) (oldKey input : String)
    (ty : ColumnType) (opts : List String) : Model :=
  let name := jsTrim input
  if name = "" then m
  else if name ≠ oldKey ∧ name ∈ columnKeys m then m
  else
    { m with
      columns := m.columns.map (fun c =>
        if ¬ c.key = oldKey then c
        else { c with
               key := if name ≠ oldKey then name else c.key,
               type := ty,
               options := submittedOptions ty opts }),
      rows :=
        if name ≠ oldKey then
          m.rows.map (fun row =>
            objSet (objDelete row oldKey) name ((objGet row oldKey).getD .null))
        else m.rows }

/-- handleDialogSubmit for a pending insert action anchored at anchorKey
on the given side: trims the name, rejects an empty or colliding name,
otherwise splices the new column at the computed index and default-fills
every row under the new key.  An empty or absent anchor appends at the
end (JavaScript indexOf equal to -1 is modelled by the none case). -/
def handleDialogSubmitInsert (m : Model) (anchorKey : String) (side : Side)
    (input : String) (ty : ColumnType) (opts : List String) : Model :=
  let name := jsTrim input
  if name = "" then m
  else if name ∈ columnKeys m then m
  else
    let idxOpt := if anchorKey = "" then none
                  else (columnKeys m).findIdx? (fun k => k = anchorKey)
    let insertIdx := match idxOpt with
      | none => (columnKeys m).length
      | some idx => if side = .left then idx else idx + 1
    let newConfig : ColumnConfig := ⟨name, ty, submittedOptions ty opts⟩
    { m with
      columns := m.columns.take insertIdx ++ newConfig :: m.columns.drop insertIdx,
      rows := m.rows.map (fun row => objSet row name (getDefaultValue ty)) }

/-- The j-th candidate name tried by the quick-add while loop: the
display label itself, then the label followed by a space and 2, 3, ... -/
def quickCandidate (label : String) : ℕ → String
  | 0 => label
  | j + 1 => label ++ " " ++ Nat.repr (j + 2)

/-- The j-th candidate name tried by the duplicate while loop: the key
followed by a space and (copy), then (copy 2), (copy 3), ... -/
def dupCandidate (key : String) : ℕ → String
  | 0 => key ++ " (copy)"
  | j + 1 => key ++ " (copy " ++ Nat.repr (j + 2) ++ ")"

/-- The while loop shared by quick-add and duplicate: return the first
candidate that is not an existing key.  The fuel argument only bounds
the search; it is always supplied large enough that a free candidate is
found (see firstFreshAux_not_mem). -/
def firstFreshAux (keys : List String) (cand : ℕ → String) : ℕ → ℕ → String
  | 0, j => cand j
  | f + 1, j => if cand j ∈ keys then firstFreshAux keys cand f (j + 1) else cand j

/-- The name generated by the quick-add while loop. -/
def quickName (keys : List String) (label : String) : String :=
  firstFreshAux keys (quickCandidate label) (keys.length + 1) 0

/-- The name generated by the duplicate while loop. -/
def dupName (keys : List String) (key : String) : String :=
  firstFreshAux keys (dupCandidate key) (keys.length + 1) 0

/-- handleQuickAdd: for select it only opens the insert dialog, leaving
the model untouched; for every other type it generates a fresh name from
the display label, appends the column at the end and default-fills every
row. -/
def handleQuickAdd (m : Model) (ty : ColumnType) : Model :=
  if ty = .select then m
  else
    let name := quickName (columnKeys m) (COLUMN_TYPE_LABELS ty)
    { m with
      columns := m.columns ++ [⟨name, ty, none⟩],
      rows := m.rows.map (fun row => objSet row name (getDefaultValue ty)) }

/-- onDuplicate: no-op when the key is not a column; otherwise generate
a fresh copy name, insert the duplicate (same type and options)
immediately right of the source, and give every row the source's value
under the new key, falling back to the type's default when the value is
absent or null (the ?? operator). -/
def onDuplicate (m : Model) (key : String) : Model :=
  match m.columns.find? (fun c => c.key = key) with
  | none => m
  | some config =>
    let copyName := dupName (columnKeys m) key
    let idx := (columnKeys m).findIdx (fun k => k = key)
    { m with
      columns := m.columns.take (idx + 1) ++ { config with key := copyName } :: m.columns.drop (idx + 1),
      rows := m.rows.map (fun row =>
        objSet row copyName (jsNullish (objGet row key) (getDefaultValue config.type))) }

/-- A single sorting descriptor of the SortingState list. -/
structure SortEntry where
  id : String
  desc : Bool
deriving DecidableEq, Repr

/-- onSort: the tri-state toggle on the sorting state. -/
def onSort (sorting : List SortEntry) (key : String) : List SortEntry :=
  match sorting.find? (fun s => s.id = key) with
  | none => [⟨key, false⟩]
  | some existing => if existing.desc = false then [⟨key, true⟩] else []

/-- onHide: record visibility false for the key in the visibility
object; columns and rows are untouched. -/
def onHide (m : Model) (key : String) : Model :=
  { m with
    visibility :=
      if m.visibility.any (fun p => p.1 = key) then
        m.visibility.map (fun p => if p.1 = key then (key, false) else p)
      else
        m.visibility ++ [(key, false)] }

/-- onDelete: remove the column configuration; row data is untouched. -/
def onColumnDelete (m : Model) (key : String) : Model :=
  { m with columns := m.columns.filter (fun c => ¬ c.key = key) }

/-- handleAddRow: build a fresh row holding the generated identifier and
the default value for every current column, and append it.  The
generated identifier is passed in as a parameter. -/
def handleAddRow (m : Model) (newId : String) : Model :=
  let emptyRow := m.columns.foldl
    (fun r config => objSet r config.key (getDefaultValue config.type))
    [("id", Value.str newId)]
  { m with rows := m.rows ++ [emptyRow] }

/-- getRowId: String(row.id ?? ""). -/
def getRowId (row : Row) : String :=
  toStringJS (jsNullish (objGet row "id") (.str ""))

/-- handleDeleteSelectedRows with the set of selected row identifiers:
keep exactly the rows whose identifier is not in the set. -/
def handleDeleteSelectedRows (m : Model) (selectedIds : List String) : Model :=
  { m with rows := m.rows.filter (fun row => ¬ getRowId row ∈ selectedIds) }

/-- The row mapping of onCellChange: only the row at rowIndex receives
the write. -/
def cellChangeRows (rowIndex : ℕ) (key : String) (v : Value) : ℕ → List Row → List Row
  | _, [] => []
  | i, r :: rs =>
    (if i = rowIndex then objSet r key v else r) :: cellChangeRows rowIndex key v (i + 1) rs

/-- onCellChange: write the value into the row at rowIndex. -/
def onCellChange (m : Model) (rowIndex : ℕ) (key : String) (v : Value) : Model :=
  { m with rows := cellChangeRows rowIndex key v 0 m.rows }

/-- The aggregate modes of the footer. -/
inductive AggregateMode where
  | sum
  | average
  | median
deriving DecidableEq, Repr

/-- computeAggregate: 0 on the empty list; otherwise the reduce-sum, the
sum divided by the count, or the median of the ascending sort (middle
element for odd length, mean of the two middle elements for even
length). -/
def computeAggregate (values : List ℚ) (mode : AggregateMode) : ℚ :=
  if values.length = 0 then 0
  else
    match mode with
    | .sum => values.foldl (· + ·) 0
    | .average => values.foldl (· + ·) 0 / values.length
    | .median =>
      let sorted := values.mergeSort (fun a b => decide (a ≤ b))
      let mid := sorted.length / 2
      if ¬ sorted.length % 2 = 0 then sorted.getD mid 0
      else (sorted.getD (mid - 1) 0 + sorted.getD mid 0) / 2

/-- The phone branch of formatCellValue, together with the null/empty
guard at the head of that function: strip the non-digits from the string
form; 10 digits are rendered as (AAA) BBB-CCCC, 11 digits led by 1 as
+1 (AAA) BBB-CCCC, anything else is returned as the raw string form.
The JavaScript startsWith test on the digit string is modelled by its
head character, which agrees with it on the nonempty strings reaching
that test. -/
def digitsOf (value : Value) : List Char :=
  (toStringJS value).data.filter Char.isDigit

def formatCellValuePhone (value : Value) : String :=
  if value = .null ∨ value = .str "" then ""
  else
    let d := digitsOf value
    if d.length = 10 then
      "(" ++ ⟨d.take 3⟩ ++ ") " ++ ⟨(d.drop 3).take 3⟩ ++ "-" ++ ⟨d.drop 6⟩
    else if d.length = 11 ∧ d.head? = some '1' then
      "+1 (" ++ ⟨(d.drop 1).take 3⟩ ++ ") " ++ ⟨(d.drop 4).take 3⟩ ++ "-" ++ ⟨d.drop 7⟩
    else
      toStringJS value

/-- One public mutation of the table model, carrying its arguments; the
row identifier generated inside handleAddRow is carried by the
operation. -/
inductive Op where
  | editColumn (oldKey input : String) (ty : ColumnType) (opts : List String)
  | insertColumn (anchorKey : String) (side : Side) (input : String) (ty : ColumnType) (opts : List String)
  | duplicateColumn (key : String)
  | quickAddColumn (ty : ColumnType)
  | deleteColumn (key : String)
  | hideColumn (key : String)
  | addRow (newId : String)
  | deleteRows (ids : List String)
  | setCell (rowIndex : ℕ) (key : String) (v : Value)

/-- Apply one mutation. -/
def applyOp (m : Model) : Op → Model
  | .editColumn oldKey input ty opts => handleDialogSubmitEdit m oldKey input ty opts
  | .insertColumn anchorKey side input ty opts => handleDialogSubmitInsert m anchorKey side input ty opts
  | .duplicateColumn key => onDuplicate m key
  | .quickAddColumn ty => handleQuickAdd m ty
  | .deleteColumn key => onColumnDelete m key
  | .hideColumn key => onHide m key
  | .addRow newId => handleAddRow m newId
  | .deleteRows ids => handleDeleteSelectedRows m ids
  | .setCell i key v => onCellChange m i key v

/-- Apply a sequence of mutations, oldest first. -/
def applyOps (m : Model) (ops : List Op) : Model :=
  ops.foldl applyOp m

/-- Invariant I2: every row has an entry for every current column key. -/
def RowsComplete (m : Model) : Prop :=
  ∀ row ∈ m.rows, ∀ c ∈ m.columns, hasKey row c.key

/-- The conjunction of invariants I1 (column keys pairwise distinct) and
I2 (rows complete). -/
def TableInv (m : Model) : Prop :=
  (columnKeys m).Nodup ∧ RowsComplete m

instance (m : Model) : Decidable (RowsComplete m) := by
  unfold RowsComplete; infer_instance

instance (m : Model) : Decidable (TableInv m) := by
  unfold TableInv; infer_instance

/-! ### Basic lemmas about the object primitives -/

theorem objGet_objSet_self (row : Row) (k : String) (v : Value) :
    objGet (objSet row k v) k = some v := by
  induction row with
  | nil => simp [objSet, objGet]
  | cons p ps ih =>
    by_cases h : p.1 = k
    · simp [objSet, objGet, h]
    · simp [objSet, objGet, h, ih]

theorem objGet_objSet_ne (row : Row) (k k' : String) (v : Value) (h : ¬ k' = k) :
    objGet (objSet row k v) k' = objGet row k' := by
  induction row with
  | nil =>
    simp only [objSet, objGet]
    rw [if_neg (fun hh => h hh.symm)]
  | cons p ps ih =>
    by_cases hp : p.1 = k
    · have h1 : ¬ (k = k') := fun hh => h hh.symm
      have h2 : ¬ p.1 = k' := fun hh => h1 (hp.symm.trans hh)
      simp [objSet, hp, objGet, h1, h2]
    · simp only [objSet, if_neg hp]
      by_cases hq : p.1 = k'
      · simp [objGet, hq]
      · simp [objGet, hq, ih]

theorem hasKey_objSet (row : Row) (k k' : String) (v : Value) :
    hasKey (objSet row k v) k' ↔ k' = k ∨ hasKey row k' := by
  induction row with
  | nil => simp [objSet, hasKey, eq_comm]
  | cons p ps ih =>
    by_cases hp : p.1 = k
    · rw [show objSet (p :: ps) k v = (k, v) :: ps from by simp [objSet, hp]]
      simp only [hasKey, List.map_cons, List.mem_cons]
      rw [hp]
      tauto
    · simp only [objSet, if_neg hp]
      simp only [hasKey, List.map_cons, List.mem_cons] at ih ⊢
      tauto

theorem hasKey_objDelete (row : Row) (k k' : String) :
    hasKey (objDelete row k) k' ↔ hasKey row k' ∧ ¬ k' = k := by
  simp only [hasKey, objDelete, List.mem_map, List.mem_filter, decide_not,
    Bool.not_eq_true', decide_eq_false_iff_not]
  constructor
  · rintro ⟨p, ⟨hp, hne⟩, rfl⟩
    exact ⟨⟨p, hp, rfl⟩, hne⟩
  · rintro ⟨⟨p, hp, rfl⟩, hne⟩
    exact ⟨p, ⟨hp, hne⟩, rfl⟩

theorem objGet_objDelete_ne (row : Row) (k k' : String) (h : ¬ k' = k) :
    objGet (objDelete row k) k' = objGet row k' := by
  induction row with
  | nil => simp [objDelete, objGet]
  | cons p ps ih =>
    by_cases hp : p.1 = k
    · have hpk : ¬ p.1 = k' := fun hh => h (hh.symm.trans hp)
      rw [show objDelete (p :: ps) k = objDelete ps k by
        simp [objDelete, List.filter_cons, hp]]
      rw [ih, objGet, if_neg hpk]
    · rw [show objDelete (p :: ps) k = p :: objDelete ps k by
        simp [objDelete, List.filter_cons, hp]]
      by_cases hq : p.1 = k'
      · simp [objGet, hq]
      · simp [objGet, hq, ih]

theorem hasKey_of_objGet (row : Row) (k : String) (v : Value)
    (h : objGet row k = some v) : hasKey row k := by
  induction row with
  | nil => simp [objGet] at h
  | cons p ps ih =>
    by_cases hp : p.1 = k
    · simp [hasKey, hp]
    · simp only [objGet, if_neg hp] at h
      simp only [hasKey, List.map_cons, List.mem_cons]
      exact Or.inr (ih h)

theorem objGet_isSome_of_hasKey (row : Row) (k : String) (h : hasKey row k) :
    ∃ v, objGet row k = some v := by
  induction row with
  | nil => simp [hasKey] at h
  | cons p ps ih =>
    by_cases hp : p.1 = k
    · exact ⟨p.2, by simp [objGet, hp]⟩
    · simp only [hasKey, List.map_cons, List.mem_cons] at h
      rcases h with h | h
      · exact absurd h.symm hp
      · simpa [objGet, hp] using ih h

/-! ### Injectivity of the decimal representation of naturals

The while loops generating fresh column names render counters with the
decimal representation; to know the loops terminate on a fresh name we
prove the representation injective by exhibiting a decoder. -/

/-- Decode a list of decimal digit characters back into a natural. -/
def decodeDec (cs : List Char) : ℕ :=
  cs.foldl (fun a c => 10 * a + (c.toNat - 48)) 0

theorem toDigitsCore_acc (b : ℕ) :
    ∀ (f n : ℕ) (ds : List Char),
      Nat.toDigitsCore b f n ds = Nat.toDigitsCore b f n [] ++ ds := by
  intro f
  induction f with
  | zero => intro n ds; simp [Nat.toDigitsCore]
  | succ f ih =>
    intro n ds
    simp only [Nat.toDigitsCore]
    by_cases h : n / b = 0
    · simp [h]
    · simp only [h, if_false]
      rw [ih (n / b) (Nat.digitChar (n % b) :: ds), ih (n / b) [Nat.digitChar (n % b)]]
      simp

theorem digitChar_decode : ∀ m : ℕ, m < 10 → (Nat.digitChar m).toNat - 48 = m := by
  decide

theorem decodeDec_append_singleton (l : List Char) (c : Char) :
    decodeDec (l ++ [c]) = 10 * decodeDec l + (c.toNat - 48) := by
  simp [decodeDec, List.foldl_append]

theorem decode_toDigitsCore :
    ∀ (f n : ℕ), n < 10 ^ f → decodeDec (Nat.toDigitsCore 10 f n []) = n := by
  intro f
  induction f with
  | zero =>
    intro n hn
    interval_cases n
    simp [Nat.toDigitsCore, decodeDec]
  | succ f ih =>
    intro n hn
    simp only [Nat.toDigitsCore]
    by_cases h : n / 10 = 0
    · have hn10 : n < 10 := by omega
      simp only [h, if_true]
      have : decodeDec [Nat.digitChar (n % 10)] = (Nat.digitChar (n % 10)).toNat - 48 := by
        simp [decodeDec]
      rw [this, digitChar_decode _ (Nat.mod_lt _ (by norm_num)), Nat.mod_eq_of_lt hn10]
    · simp only [h, if_false]
      rw [toDigitsCore_acc 10 f (n / 10) [Nat.digitChar (n % 10)],
        decodeDec_append_singleton, ih (n / 10) (by omega),
        digitChar_decode _ (Nat.mod_lt _ (by norm_num))]
      omega

theorem decode_repr_data (n : ℕ) : decodeDec (Nat.repr n).data = n := by
  have hlt : n < 10 ^ (n + 1) := by
    calc n < 10 ^ n := Nat.lt_pow_self (by norm_num) n
    _ ≤ 10 ^ (n + 1) := Nat.pow_le_pow_right (by norm_num) (Nat.le_succ n)
  simpa [Nat.repr, Nat.toDigits, List.asString] using decode_toDigitsCore (n + 1) n hlt

theorem repr_data_inj {a b : ℕ} (h : (Nat.repr a).data = (Nat.repr b).data) : a = b := by
  have := congrArg decodeDec h
  rwa [decode_repr_data, decode_repr_data] at this

theorem repr_inj : Function.Injective Nat.repr := by
  intro a b h
  exact repr_data_inj (congrArg String.data h)

theorem repr_data_ne_nil (n : ℕ) : (Nat.repr n).data ≠ [] := by
  intro h
  have h0 := decode_repr_data n
  by_cases hn : n = 0
  · subst hn
    simp [Nat.repr, Nat.toDigits, Nat.toDigitsCore, List.asString] at h
  · rw [h] at h0
    exact hn (by simpa [decodeDec] using h0.symm)

theorem repr_length_pos (n : ℕ) : 0 < (Nat.repr n).length := by
  have := repr_data_ne_nil n
  cases hd : (Nat.repr n).data with
  | nil => exact absurd hd this
  | cons c cs =>
    have : (Nat.repr n).length = (Nat.repr n).data.length := rfl
    rw [this, hd]
    simp

/-! ### The fresh-name search loop -/

theorem firstFreshAux_not_mem (keys : List String) (cand : ℕ → String) :
    ∀ (f j : ℕ), (∃ i ∈ List.range' j f, cand i ∉ keys) →
      firstFreshAux keys cand f j ∉ keys := by
  intro f
  induction f with
  | zero =>
    rintro j ⟨i, hi, _⟩
    simp at hi
  | succ f ih =>
    rintro j ⟨i, hi, hfree⟩
    rw [List.range'_succ] at hi
    simp only [List.mem_cons] at hi
    by_cases hc : cand j ∈ keys
    · simp only [firstFreshAux, if_pos hc]
      apply ih (j + 1)
      rcases hi with rfl | hi
      · exact absurd hc hfree
      · exact ⟨i, hi, hfree⟩
    · simpa only [firstFreshAux, if_neg hc] using hc

theorem exists_free_candidate (keys : List String) (cand : ℕ → String)
    (hinj : Function.Injective cand) :
    ∃ i ∈ List.range' 0 (keys.length + 1), cand i ∉ keys := by
  by_contra hall
  push_neg at hall
  have hsub : (List.range' 0 (keys.length + 1)).map cand ⊆ keys := by
    intro s hs
    rcases List.mem_map.mp hs with ⟨i, hi, rfl⟩
    exact hall i hi
  have hnd : ((List.range' 0 (keys.length + 1)).map cand).Nodup :=
    (List.nodup_range' 0 (keys.length + 1) 1 (by norm_num)).map hinj
  have hlen := (hnd.subperm hsub).length_le
  simp at hlen

theorem firstFresh_spec (keys : List String) (cand : ℕ → String)
    (hinj : Function.Injective cand) :
    firstFreshAux keys cand (keys.length + 1) 0 ∉ keys :=
  firstFreshAux_not_mem keys cand (keys.length + 1) 0
    (exists_free_candidate keys cand hinj)

theorem dupCandidate_inj (key : String) : Function.Injective (dupCandidate key) := by
  intro a b h
  match a, b with
  | 0, 0 => rfl
  | 0, j + 1 =>
    exfalso
    have hl := congrArg String.length h
    simp only [dupCandidate, String.length_append] at hl
    have h7 : (" (copy)" : String).length = 7 := rfl
    have h7b : (" (copy " : String).length = 7 := rfl
    have h1 : (")" : String).length = 1 := rfl
    have := repr_length_pos (j + 2)
    omega
  | j + 1, 0 =>
    exfalso
    have hl := congrArg String.length h
    simp only [dupCandidate, String.length_append] at hl
    have h7 : (" (copy)" : String).length = 7 := rfl
    have h7b : (" (copy " : String).length = 7 := rfl
    have h1 : (")" : String).length = 1 := rfl
    have := repr_length_pos (j + 2)
    omega
  | j + 1, k + 1 =>
    have hd := congrArg String.data h
    simp only [dupCandidate, String.data_append, List.append_assoc] at hd
    have hd1 := List.append_cancel_left hd
    have hd2 := List.append_cancel_left hd1
    have hd3 := List.append_cancel_right hd2
    have := repr_data_inj hd3
    omega

theorem quickCandidate_inj (label : String) : Function.Injective (quickCandidate label) := by
  intro a b h
  match a, b with
  | 0, 0 => rfl
  | 0, j + 1 =>
    exfalso
    have hl := congrArg String.length h
    simp only [quickCandidate, String.length_append] at hl
    have h1 : (" " : String).length = 1 := rfl
    have := repr_length_pos (j + 2)
    omega
  | j + 1, 0 =>
    exfalso
    have hl := congrArg String.length h
    simp only [quickCandidate, String.length_append] at hl
    have h1 : (" " : String).length = 1 := rfl
    have := repr_length_pos (j + 2)
    omega
  | j + 1, k + 1 =>
    have hd := congrArg String.data h
    simp only [quickCandidate, String.data_append, List.append_assoc] at hd
    have hd1 := List.append_cancel_left hd
    have hd2 := List.append_cancel_left hd1
    have := repr_data_inj hd2
    omega

theorem dupName_not_mem (keys : List String) (key : String) :
    dupName keys key ∉ keys :=
  firstFresh_spec keys (dupCandidate key) (dupCandidate_inj key)

theorem quickName_not_mem (keys : List String) (label : String) :
    quickName keys label ∉ keys :=
  firstFresh_spec keys (quickCandidate label) (quickCandidate_inj label)

theorem firstFreshAux_is_cand (keys : List String) (cand : ℕ → String) :
    ∀ (f j : ℕ), ∃ i, firstFreshAux keys cand f j = cand i := by
  intro f
  induction f with
  | zero => intro j; exact ⟨j, rfl⟩
  | succ f ih =>
    intro j
    by_cases hc : cand j ∈ keys
    · simpa only [firstFreshAux, if_pos hc] using ih (j + 1)
    · exact ⟨j, by simp only [firstFreshAux, if_neg hc]⟩

theorem quickName_eq_label (keys : List String) (label : String) (h : label ∉ keys) :
    quickName keys label = label := by
  unfold quickName
  simp only [firstFreshAux]
  rw [if_neg (show ¬ quickCandidate label 0 ∈ keys from h)]
  rfl

theorem quickName_eq_second (keys : List String) (label : String)
    (h0 : label ∈ keys) (h1 : label ++ " 2" ∉ keys) :
    quickName keys label = label ++ " 2" := by
  have hc1 : quickCandidate label (0 + 1) = label ++ " 2" := by
    show label ++ " " ++ Nat.repr (0 + 2) = label ++ " 2"
    rw [String.append_assoc]
    rfl
  obtain ⟨l, hl⟩ : ∃ l, keys.length = l + 1 := by
    cases keys with
    | nil => simp at h0
    | cons a as => exact ⟨as.length, rfl⟩
  unfold quickName
  rw [hl]
  show firstFreshAux keys (quickCandidate label) (l + 1 + 1) 0 = label ++ " 2"
  simp only [firstFreshAux]
  rw [hc1, if_pos (show quickCandidate label 0 ∈ keys from h0), if_neg h1]

theorem dupName_eq_copy (keys : List String) (key : String)
    (h : key ++ " (copy)" ∉ keys) :
    dupName keys key = key ++ " (copy)" := by
  unfold dupName
  simp only [firstFreshAux]
  rw [if_neg (show ¬ dupCandidate key 0 ∈ keys from h)]
  rfl

theorem dupName_eq_copy2 (keys : List String) (key : String)
    (h0 : key ++ " (copy)" ∈ keys) (h1 : key ++ " (copy 2)" ∉ keys) :
    dupName keys key = key ++ " (copy 2)" := by
  have hc1 : dupCandidate key (0 + 1) = key ++ " (copy 2)" := by
    show key ++ " (copy " ++ Nat.repr (0 + 2) ++ ")" = key ++ " (copy 2)"
    rw [String.append_assoc, String.append_assoc]
    rfl
  obtain ⟨l, hl⟩ : ∃ l, keys.length = l + 1 := by
    cases keys with
    | nil => simp at h0
    | cons a as => exact ⟨as.length, rfl⟩
  unfold dupName
  rw [hl]
  show firstFreshAux keys (dupCandidate key) (l + 1 + 1) 0 = key ++ " (copy 2)"
  simp only [firstFreshAux]
  rw [hc1, if_pos (show dupCandidate key 0 ∈ keys from h0), if_neg h1]

/-! ### Preservation of the invariants by each mutation -/

theorem splice_perm {α : Type} (l : List α) (n : ℕ) (x : α) :
    List.Perm (l.take n ++ x :: l.drop n) (x :: l) := by
  have h : List.Perm (l.take n ++ x :: l.drop n) (x :: (l.take n ++ l.drop n)) :=
    List.perm_middle
  rwa [List.take_append_drop] at h

theorem tableInv_addColumn (m : Model) (cols2 : List ColumnConfig)
    (newc : ColumnConfig) (vf : Row → Value)
    (hperm : List.Perm cols2 (newc :: m.columns))
    (hfresh : newc.key ∉ columnKeys m) (h : TableInv m) :
    TableInv { m with columns := cols2,
                      rows := m.rows.map (fun row => objSet row newc.key (vf row)) } := by
  obtain ⟨hnd, hrc⟩ := h
  constructor
  · show (cols2.map (fun c => c.key)).Nodup
    have hkperm : List.Perm (cols2.map (fun c => c.key)) (newc.key :: columnKeys m) :=
      hperm.map (fun c => c.key)
    exact (hkperm.symm.nodup (by simp [List.nodup_cons, hfresh, hnd]))
  · intro row' hrow' c' hc'
    rcases List.mem_map.mp hrow' with ⟨row, hrow, rfl⟩
    cases List.mem_cons.mp (hperm.mem_iff.mp hc') with
    | inl h1 =>
      rw [h1]
      exact (hasKey_objSet row newc.key newc.key (vf row)).mpr (Or.inl rfl)
    | inr h1 =>
      exact (hasKey_objSet row newc.key c'.key (vf row)).mpr (Or.inr (hrc row hrow c' h1))

theorem tableInv_insert (m : Model) (anchorKey : String) (side : Side)
    (input : String) (ty : ColumnType) (opts : List String) (h : TableInv m) :
    TableInv (handleDialogSubmitInsert m anchorKey side input ty opts) := by
  unfold handleDialogSubmitInsert
  by_cases h0 : jsTrim input = ""
  · simpa [h0] using h
  · by_cases h1 : jsTrim input ∈ columnKeys m
    · simpa [h0, h1] using h
    · simp only [h0, h1, if_false]
      exact tableInv_addColumn m _ ⟨jsTrim input, ty, submittedOptions ty opts⟩
        (fun _ => getDefaultValue ty) (splice_perm m.columns _ _) h1 h

theorem tableInv_quickAdd (m : Model) (ty : ColumnType) (h : TableInv m) :
    TableInv (handleQuickAdd m ty) := by
  unfold handleQuickAdd
  by_cases hsel : ty = ColumnType.select
  · simpa [hsel] using h
  · simp only [hsel, if_false]
    exact tableInv_addColumn m _
      ⟨quickName (columnKeys m) (COLUMN_TYPE_LABELS ty), ty, none⟩
      (fun _ => getDefaultValue ty)
      (List.perm_append_singleton _ _)
      (quickName_not_mem (columnKeys m) (COLUMN_TYPE_LABELS ty)) h

theorem tableInv_duplicate (m : Model) (key : String) (h : TableInv m) :
    TableInv (onDuplicate m key) := by
  unfold onDuplicate
  cases hfind : m.columns.find? (fun c => c.key = key) with
  | none => exact h
  | some config =>
    exact tableInv_addColumn m _
      { config with key := dupName (columnKeys m) key }
      (fun row => jsNullish (objGet row key) (getDefaultValue config.type))
      (splice_perm m.columns _ _)
      (dupName_not_mem (columnKeys m) key) h

theorem tableInv_edit (m : Model) (oldKey input : String) (ty : ColumnType)
    (opts : List String) (h : TableInv m) :
    TableInv (handleDialogSubmitEdit m oldKey input ty opts) := by
  obtain ⟨hnd, hrc⟩ := h
  unfold handleDialogSubmitEdit
  by_cases h0 : jsTrim input = ""
  · simpa [h0] using ⟨hnd, hrc⟩
  · by_cases h1 : jsTrim input ≠ oldKey ∧ jsTrim input ∈ columnKeys m
    · simpa [h0, h1] using ⟨hnd, hrc⟩
    · simp only [h0, h1, if_false]
      by_cases hch : jsTrim input ≠ oldKey
      case neg =>
        -- the name did not change: keys are untouched and rows are untouched
        push_neg at hch
        constructor
        · simp only [columnKeys]
          rw [List.map_map]
          have : ((fun c : ColumnConfig => c.key) ∘ (fun c =>
              if ¬ c.key = oldKey then c
              else { c with
                     key := if jsTrim input ≠ oldKey then jsTrim input else c.key,
                     type := ty,
                     options := submittedOptions ty opts })) = fun c : ColumnConfig => c.key := by
            funext c
            by_cases hc : c.key = oldKey <;> simp [hc, hch]
          rw [this]
          exact hnd
        · intro row hrow c' hc'
          simp only [hch, ne_eq, not_true_eq_false, if_false] at hrow
          rcases List.mem_map.mp hc' with ⟨c, hc, rfl⟩
          by_cases hck : c.key = oldKey
          · simp only [hck, not_true_eq_false, if_false, hch, ne_eq]
            simpa [hck, hch] using hrc row hrow c hc
          · simpa [hck] using hrc row hrow c hc
      case pos =>
        have hfree : jsTrim input ∉ columnKeys m := fun hmem => h1 ⟨hch, hmem⟩
        constructor
        · simp only [columnKeys]
          rw [List.map_map]
          have heq : ((fun c : ColumnConfig => c.key) ∘ (fun c =>
              if ¬ c.key = oldKey then c
              else { c with
                     key := if jsTrim input ≠ oldKey then jsTrim input else c.key,
                     type := ty,
                     options := submittedOptions ty opts })) = fun c : ColumnConfig =>
              if c.key = oldKey then jsTrim input else c.key := by
            funext c
            by_cases hc : c.key = oldKey <;> simp [hc, hch]
          rw [heq, show (fun c : ColumnConfig => if c.key = oldKey then jsTrim input else c.key)
              = (fun k => if k = oldKey then jsTrim input else k) ∘ (fun c : ColumnConfig => c.key)
              from rfl, ← List.map_map]
          apply List.Nodup.map_on _ hnd
          intro x hx y hy hxy
          by_cases hxk : x = oldKey <;> by_cases hyk : y = oldKey
          · exact hxk.trans hyk.symm
          · exfalso
            rw [if_pos hxk, if_neg hyk] at hxy
            exact hfree (hxy ▸ hy)
          · exfalso
            rw [if_neg hxk, if_pos hyk] at hxy
            exact hfree (hxy.symm ▸ hx)
          · rwa [if_neg hxk, if_neg hyk] at hxy
        · intro row' hrow' c' hc'
          simp only [hch, ne_eq, not_false_eq_true, if_true] at hrow'
          rcases List.mem_map.mp hrow' with ⟨row, hrow, rfl⟩
          rcases List.mem_map.mp hc' with ⟨c, hc, rfl⟩
          by_cases hck : c.key = oldKey
          · simp only [hck, not_true_eq_false, if_false, hch, ne_eq, not_false_eq_true, if_true]
            exact (hasKey_objSet _ _ _ _).mpr (Or.inl rfl)
          · simp only [hck, not_false_eq_true, if_true]
            apply (hasKey_objSet _ _ _ _).mpr
            refine Or.inr ((hasKey_objDelete _ _ _).mpr ⟨hrc row hrow c hc, hck⟩)

theorem tableInv_deleteColumn (m : Model) (key : String) (h : TableInv m) :
    TableInv (onColumnDelete m key) := by
  obtain ⟨hnd, hrc⟩ := h
  constructor
  · show ((m.columns.filter _).map (fun c => c.key)).Nodup
    exact hnd.sublist ((List.filter_sublist m.columns).map (fun c => c.key))
  · intro row hrow c hc
    exact hrc row hrow c (List.mem_of_mem_filter hc)

theorem tableInv_hide (m : Model) (key : String) (h : TableInv m) :
    TableInv (onHide m key) := h

theorem hasKey_foldl_objSet_of_hasKey (cols : List ColumnConfig) :
    ∀ (init : Row) (k : String), hasKey init k →
      hasKey (cols.foldl (fun r config => objSet r config.key (getDefaultValue config.type)) init) k := by
  induction cols with
  | nil => intro init k hk; exact hk
  | cons d ds ih =>
    intro init k hk
    exact ih _ k ((hasKey_objSet _ _ _ _).mpr (Or.inr hk))

theorem hasKey_foldl_objSet (cols : List ColumnConfig) :
    ∀ (init : Row) (c : ColumnConfig), c ∈ cols →
      hasKey (cols.foldl (fun r config => objSet r config.key (getDefaultValue config.type)) init) c.key := by
  induction cols with
  | nil => intro init c hc; simp at hc
  | cons d ds ih =>
    intro init c hc
    rcases List.mem_cons.mp hc with rfl | hc
    · exact hasKey_foldl_objSet_of_hasKey ds _ _ ((hasKey_objSet _ _ _ _).mpr (Or.inl rfl))
    · exact ih _ c hc

theorem tableInv_addRow (m : Model) (newId : String) (h : TableInv m) :
    TableInv (handleAddRow m newId) := by
  obtain ⟨hnd, hrc⟩ := h
  refine ⟨hnd, ?_⟩
  intro row hrow c hc
  rcases List.mem_append.mp hrow with hrow | hrow
  · exact hrc row hrow c hc
  · rw [List.mem_singleton.mp hrow]
    exact hasKey_foldl_objSet m.columns _ c hc

theorem tableInv_deleteRows (m : Model) (ids : List String) (h : TableInv m) :
    TableInv (handleDeleteSelectedRows m ids) := by
  obtain ⟨hnd, hrc⟩ := h
  refine ⟨hnd, ?_⟩
  intro row hrow c hc
  exact hrc row (List.mem_of_mem_filter hrow) c hc

theorem mem_cellChangeRows (rowIndex : ℕ) (key : String) (v : Value) :
    ∀ (j : ℕ) (rows : List Row) (row' : Row),
      row' ∈ cellChangeRows rowIndex key v j rows →
      ∃ r ∈ rows, row' = r ∨ row' = objSet r key v := by
  intro j rows
  induction rows generalizing j with
  | nil => intro row' h; simp [cellChangeRows] at h
  | cons r rs ih =>
    intro row' h
    simp only [cellChangeRows, List.mem_cons] at h
    rcases h with h | h
    · by_cases hj : j = rowIndex
      · exact ⟨r, List.mem_cons_self r rs, Or.inr (by simpa [hj] using h)⟩
      · exact ⟨r, List.mem_cons_self r rs, Or.inl (by simpa [hj] using h)⟩
    · rcases ih (j + 1) row' h with ⟨r0, hr0, hcase⟩
      exact ⟨r0, List.mem_cons_of_mem r hr0, hcase⟩

theorem tableInv_setCell (m : Model) (rowIndex : ℕ) (key : String) (v : Value)
    (h : TableInv m) : TableInv (onCellChange m rowIndex key v) := by
  obtain ⟨hnd, hrc⟩ := h
  refine ⟨hnd, ?_⟩
  intro row' hrow' c hc
  rcases mem_cellChangeRows rowIndex key v 0 m.rows row' hrow' with ⟨r, hr, hcase⟩
  rcases hcase with heq | heq
  · rw [heq]
    exact hrc r hr c hc
  · rw [heq]
    exact (hasKey_objSet _ _ _ _).mpr (Or.inr (hrc r hr c hc))

theorem tableInv_applyOp (m : Model) (op : Op) (h : TableInv m) :
    TableInv (applyOp m op) := by
  cases op with
  | editColumn oldKey input ty opts => exact tableInv_edit m oldKey input ty opts h
  | insertColumn anchorKey side input ty opts => exact tableInv_insert m anchorKey side input ty opts h
  | duplicateColumn key => exact tableInv_duplicate m key h
  | quickAddColumn ty => exact tableInv_quickAdd m ty h
  | deleteColumn key => exact tableInv_deleteColumn m key h
  | hideColumn key => exact tableInv_hide m key h
  | addRow newId => exact tableInv_addRow m newId h
  | deleteRows ids => exact tableInv_deleteRows m ids h
  | setCell i key v => exact tableInv_setCell m i key v h

/-! ### Demo data (the initial columns and row of the demo page) -/

/-- The demo columns: status, email, amount. -/
def demoColumns : List ColumnConfig :=
  [⟨"status", .text, none⟩, ⟨"email", .email, none⟩, ⟨"amount", .currency, none⟩]

/-- The demo row of the page data source. -/
def demoRow : Row :=
  [("id", .str "728ed52f"), ("amount", .num 100), ("status", .str "pending"),
   ("email", .str "m@example.com")]

/-- The demo table model. -/
def demoModel : Model := ⟨demoColumns, [demoRow], []⟩

/-! ### C1 -/

/-- C1: for every table model whose column keys are pairwise distinct
and in which every row has an entry for every column key, any sequence
of the public mutation operations (rename, insert, duplicate, quick-add,
delete and hide column, add row, delete rows, set cell value) keeps the
column keys pairwise distinct and keeps every row equipped with an entry
for every current column key. -/
theorem mutation_sequences_preserve_invariants (m : Model) (h : TableInv m)
    (ops : List Op) : TableInv (applyOps m ops) := by
  induction ops generalizing m with
  | nil => exact h
  | cons op ops ih => exact ih (applyOp m op) (tableInv_applyOp m op h)

/-- Witness for C1: the invariants hold after a concrete sequence of all
nine mutations applied to the demo model. -/
theorem mutation_sequences_preserve_invariants_witness :
    TableInv (applyOps demoModel
      [Op.quickAddColumn .text, Op.duplicateColumn "amount",
       Op.editColumn "status" "state" .text [],
       Op.insertColumn "email" .right "Phone" .phone [],
       Op.deleteColumn "email", Op.addRow "r2",
       Op.setCell 0 "state" (.str "done"), Op.hideColumn "amount",
       Op.deleteRows ["728ed52f"], Op.quickAddColumn .select]) :=
  mutation_sequences_preserve_invariants demoModel (by decide) _

/-! ### C2 -/

/-- C2: a rename whose new name trims to empty, a rename whose trimmed
name differs from the old key but equals an existing key, and an insert
whose trimmed name equals an existing key, each leave the model (column
list and all rows) exactly unchanged. -/
theorem rejected_mutations_leave_model_unchanged (m : Model)
    (oldKey input input2 : String) (ty : ColumnType) (opts : List String)
    (anchor : String) (side : Side) :
    (jsTrim input = "" → handleDialogSubmitEdit m oldKey input ty opts = m) ∧
    (jsTrim input ≠ oldKey → jsTrim input ∈ columnKeys m →
      handleDialogSubmitEdit m oldKey input ty opts = m) ∧
    (jsTrim input2 ∈ columnKeys m →
      handleDialogSubmitInsert m anchor side input2 ty opts = m) := by
  refine ⟨?_, ?_, ?_⟩
  · intro h
    simp [handleDialogSubmitEdit, h]
  · intro h1 h2
    by_cases h0 : jsTrim input = ""
    · simp [handleDialogSubmitEdit, h0]
    · simp [handleDialogSubmitEdit, h0, h1, h2]
  · intro h2
    by_cases h0 : jsTrim input2 = ""
    · simp [handleDialogSubmitInsert, h0]
    · simp [handleDialogSubmitInsert, h0, h2]

/-- Witness for C2: on the demo model, renaming status to a blank name,
renaming status to email, and inserting a column named amount are all
no-ops. -/
theorem rejected_mutations_leave_model_unchanged_witness :
    handleDialogSubmitEdit demoModel "status" "   " .text [] = demoModel ∧
    handleDialogSubmitEdit demoModel "status" " email " .text [] = demoModel ∧
    handleDialogSubmitInsert demoModel "email" .right " amount " .text [] = demoModel :=
  ⟨(rejected_mutations_leave_model_unchanged demoModel "status" "   " " amount "
      .text [] "email" .right).1 (by decide),
   (rejected_mutations_leave_model_unchanged demoModel "status" " email " " amount "
      .text [] "email" .right).2.1 (by decide) (by decide),
   (rejected_mutations_leave_model_unchanged demoModel "status" " email " " amount "
      .text [] "email" .right).2.2 (by decide)⟩

/-! ### C7 -/

/-- C7: the sort toggle sets an ascending descriptor when none matches
the key, flips a matching ascending descriptor to descending, clears a
matching descending descriptor; three toggles from the unsorted state
cycle through ascending and descending back to unsorted, and the result
always carries at most one descriptor. -/
theorem toggle_sort_tristate (key : String) (prev : List SortEntry) :
    (prev.find? (fun s => s.id = key) = none → onSort prev key = [⟨key, false⟩]) ∧
    (∀ e, prev.find? (fun s => s.id = key) = some e → e.desc = false →
      onSort prev key = [⟨key, true⟩]) ∧
    (∀ e, prev.find? (fun s => s.id = key) = some e → e.desc = true →
      onSort prev key = []) ∧
    onSort [] key = [⟨key, false⟩] ∧
    onSort (onSort [] key) key = [⟨key, true⟩] ∧
    onSort (onSort (onSort [] key) key) key = [] ∧
    (onSort prev key).length ≤ 1 := by
  have h1 : onSort [] key = [⟨key, false⟩] := by
    simp [onSort, List.find?]
  have h2 : onSort [⟨key, false⟩] key = [⟨key, true⟩] := by
    simp [onSort, List.find?]
  have h3 : onSort [⟨key, true⟩] key = [] := by
    simp [onSort, List.find?]
  refine ⟨?_, ?_, ?_, h1, by rw [h1, h2], by rw [h1, h2, h3], ?_⟩
  · intro h
    simp [onSort, h]
  · intro e he hd
    simp [onSort, he, hd]
  · intro e he hd
    simp [onSort, he, hd]
  · unfold onSort
    cases prev.find? (fun s => s.id = key) with
    | none => simp
    | some e =>
      by_cases hd : e.desc = false <;> simp [hd]

/-- Witness for C7: the three branch descriptions evaluated on concrete
sorting states. -/
theorem toggle_sort_tristate_witness :
    onSort [⟨"status", false⟩] "amount" = [⟨"amount", false⟩] ∧
    onSort [⟨"amount", false⟩] "amount" = [⟨"amount", true⟩] ∧
    onSort [⟨"amount", true⟩] "amount" = [] :=
  ⟨(toggle_sort_tristate "amount" [⟨"status", false⟩]).1 (by decide),
   (toggle_sort_tristate "amount" [⟨"amount", false⟩]).2.1 ⟨"amount", false⟩ (by decide) rfl,
   (toggle_sort_tristate "amount" [⟨"amount", true⟩]).2.2.1 ⟨"amount", true⟩ (by decide) rfl⟩

/-! ### C9 -/

/-- C9: formatting a non-null, non-empty value as a phone number strips
the non-digits from its string form; exactly 10 digits render as
(AAA) BBB-CCCC, exactly 11 digits starting with 1 render as
+1 (AAA) BBB-CCCC, and any other digit count returns the raw string
form; in particular the three concrete examples of the spec. -/
theorem format_phone_spec (v : Value) (hnull : v ≠ .null) (hempty : v ≠ .str "") :
    ((digitsOf v).length = 10 →
      formatCellValuePhone v =
        "(" ++ ⟨(digitsOf v).take 3⟩ ++ ") " ++ ⟨((digitsOf v).drop 3).take 3⟩ ++
        "-" ++ ⟨(digitsOf v).drop 6⟩) ∧
    ((digitsOf v).length = 11 → (digitsOf v).head? = some '1' →
      formatCellValuePhone v =
        "+1 (" ++ ⟨((digitsOf v).drop 1).take 3⟩ ++ ") " ++
        ⟨((digitsOf v).drop 4).take 3⟩ ++ "-" ++ ⟨(digitsOf v).drop 7⟩) ∧
    (¬ (digitsOf v).length = 10 →
      ((digitsOf v).length = 11 → ¬ (digitsOf v).head? = some '1') →
      formatCellValuePhone v = toStringJS v) ∧
    formatCellValuePhone (.str "5551234567") = "(555) 123-4567" ∧
    formatCellValuePhone (.str "15551234567") = "+1 (555) 123-4567" ∧
    formatCellValuePhone (.str "123") = "123" := by
  have hguard : ¬ (v = .null ∨ v = .str "") := by
    rintro (h | h)
    · exact hnull h
    · exact hempty h
  refine ⟨?_, ?_, ?_, by decide, by decide, by decide⟩
  · intro h10
    simp [formatCellValuePhone, hguard, h10]
  · intro h11 hhead
    have hne10 : ¬ (digitsOf v).length = 10 := by omega
    simp [formatCellValuePhone, hguard, hne10, h11, hhead]
  · intro hne10 hno1
    have hsecond : ¬ ((digitsOf v).length = 11 ∧ (digitsOf v).head? = some '1') := by
      rintro ⟨ha, hb⟩
      exact hno1 ha hb
    simp only [formatCellValuePhone, if_neg hguard]
    rw [if_neg hne10, if_neg hsecond]

/-- Witness for C9: the general branch descriptions applied to concrete
phone strings. -/
theorem format_phone_spec_witness :
    formatCellValuePhone (.str "555-123-4567") = "(555) 123-4567" ∧
    formatCellValuePhone (.str "+1 555 123 4567") = "+1 (555) 123-4567" ∧
    formatCellValuePhone (.str "notaphone") = "notaphone" :=
  ⟨((format_phone_spec (.str "555-123-4567") (by decide) (by decide)).1 (by decide)).trans
    (by decide),
   ((format_phone_spec (.str "+1 555 123 4567") (by decide) (by decide)).2.1 (by decide)
     (by decide)).trans (by decide),
   ((format_phone_spec (.str "notaphone") (by decide) (by decide)).2.2.1 (by decide)
     (by decide)).trans (by decide)⟩

/-! ### C10 -/

/-- C10: deleting selected rows removes exactly the rows whose
stringified identifier (the string form of the id entry, the empty
string when the id is absent or null) is in the selected set; rows
sharing a stringified identifier are removed or kept together. -/
theorem delete_rows_by_stringified_id (m : Model) (ids : List String) :
    (∀ row, row ∈ (handleDeleteSelectedRows m ids).rows ↔
      row ∈ m.rows ∧ ¬ getRowId row ∈ ids) ∧
    (∀ row, objGet row "id" = none ∨ objGet row "id" = some .null → getRowId row = "") ∧
    (∀ row s, objGet row "id" = some (.str s) → getRowId row = s) ∧
    (∀ r1 r2, r1 ∈ m.rows → r2 ∈ m.rows → getRowId r1 = getRowId r2 →
      (r1 ∈ (handleDeleteSelectedRows m ids).rows ↔
       r2 ∈ (handleDeleteSelectedRows m ids).rows)) := by
  have hmem : ∀ row, row ∈ (handleDeleteSelectedRows m ids).rows ↔
      row ∈ m.rows ∧ ¬ getRowId row ∈ ids := by
    intro row
    simp [handleDeleteSelectedRows, List.mem_filter]
  refine ⟨hmem, ?_, ?_, ?_⟩
  · intro row h
    rcases h with h | h <;> simp [getRowId, h, jsNullish, toStringJS]
  · intro row s h
    simp [getRowId, h, jsNullish, toStringJS]
  · intro r1 r2 h1 h2 hid
    rw [hmem r1, hmem r2, hid]
    exact ⟨fun ⟨_, hin⟩ => ⟨h2, hin⟩, fun ⟨_, hin⟩ => ⟨h1, hin⟩⟩

/-- Witness for C10: two rows without any id entry share the stringified
identifier, so deleting that identifier removes both. -/
theorem delete_rows_by_stringified_id_witness :
    (([("a", Value.str "x")] : Row) ∈
      (handleDeleteSelectedRows ⟨[], [[("a", .str "x")], [("b", .str "y")]], []⟩ [""]).rows ↔
      ([("a", Value.str "x")] : Row) ∈
        ([[("a", .str "x")], [("b", .str "y")]] : List Row) ∧ ¬ ("" : String) ∈ [""]) ∧
    getRowId [("a", .str "x")] = "" :=
  ⟨by
    have h := (delete_rows_by_stringified_id
      ⟨[], [[("a", .str "x")], [("b", .str "y")]], []⟩ [""]).1 [("a", .str "x")]
    rwa [show getRowId [("a", Value.str "x")] = "" from by decide] at h,
   (delete_rows_by_stringified_id ⟨[], [[("a", .str "x")], [("b", .str "y")]], []⟩ [""]).2.1
     [("a", .str "x")] (Or.inl (by decide))⟩

/-! ### C8 -/

theorem mergeSort_eq_sorted (values sorted : List ℚ)
    (hperm : List.Perm values sorted) (hsorted : sorted.Sorted (· ≤ ·)) :
    values.mergeSort (fun a b => decide (a ≤ b)) = sorted := by
  have htrans : ∀ (a b c : ℚ), decide (a ≤ b) = true → decide (b ≤ c) = true →
      decide (a ≤ c) = true := by
    intro a b c hab hbc
    simp only [decide_eq_true_eq] at hab hbc ⊢
    exact le_trans hab hbc
  have htotal : ∀ (a b : ℚ), (decide (a ≤ b) || decide (b ≤ a)) = true := by
    intro a b
    simp only [Bool.or_eq_true, decide_eq_true_eq]
    exact le_total a b
  have s1 : (values.mergeSort (fun a b => decide (a ≤ b))).Sorted (· ≤ ·) :=
    (List.sorted_mergeSort htrans htotal values).imp (fun h => of_decide_eq_true h)
  exact List.eq_of_perm_of_sorted ((List.mergeSort_perm values _).trans hperm) s1 hsorted

theorem computeAggregate_median_eq (values : List ℚ) (h : ¬ values.length = 0) :
    computeAggregate values .median =
      (if ¬ (values.mergeSort (fun a b => decide (a ≤ b))).length % 2 = 0
       then (values.mergeSort (fun a b => decide (a ≤ b))).getD
         ((values.mergeSort (fun a b => decide (a ≤ b))).length / 2) 0
       else ((values.mergeSort (fun a b => decide (a ≤ b))).getD
         ((values.mergeSort (fun a b => decide (a ≤ b))).length / 2 - 1) 0 +
         (values.mergeSort (fun a b => decide (a ≤ b))).getD
         ((values.mergeSort (fun a b => decide (a ≤ b))).length / 2) 0) / 2) := by
  simp [computeAggregate, h]

/-- C8: the aggregate of a list of surviving numbers is their sum, their
sum divided by their count (average), or the middle of the ascending
sort (median: middle element for odd count, mean of the two middle
elements for even count); every mode returns 0 on the empty list, and
the spec's concrete examples hold. -/
theorem compute_aggregate_spec (values sorted : List ℚ)
    (hperm : List.Perm values sorted) (hsorted : sorted.Sorted (· ≤ ·)) :
    computeAggregate values .sum = values.sum ∧
    (¬ values = [] → computeAggregate values .average = values.sum / values.length) ∧
    (¬ values = [] → values.length % 2 = 1 →
      computeAggregate values .median = sorted.getD (values.length / 2) 0) ∧
    (¬ values = [] → values.length % 2 = 0 →
      computeAggregate values .median =
        (sorted.getD (values.length / 2 - 1) 0 + sorted.getD (values.length / 2) 0) / 2) ∧
    computeAggregate [] .sum = 0 ∧ computeAggregate [] .average = 0 ∧
    computeAggregate [] .median = 0 ∧
    computeAggregate [1, 2, 3] .sum = 6 ∧ computeAggregate [1, 2, 3] .average = 2 ∧
    computeAggregate [1, 2, 3, 4] .median = 5 / 2 := by
  have hms : values.mergeSort (fun a b => decide (a ≤ b)) = sorted :=
    mergeSort_eq_sorted values sorted hperm hsorted
  have hlen : sorted.length = values.length := hperm.length_eq.symm
  have hms4 : ([1, 2, 3, 4] : List ℚ).mergeSort (fun a b => decide (a ≤ b)) = [1, 2, 3, 4] :=
    List.mergeSort_of_sorted (by decide)
  refine ⟨?_, ?_, ?_, ?_, by simp [computeAggregate], by simp [computeAggregate],
    by simp [computeAggregate], ?_, ?_, ?_⟩
  · by_cases hv : values = []
    · simp [computeAggregate, hv]
    · have h0 : ¬ values.length = 0 := by simpa [List.length_eq_zero] using hv
      simp [computeAggregate, h0, ← List.sum_eq_foldl]
  · intro hv
    have h0 : ¬ values.length = 0 := by simpa [List.length_eq_zero] using hv
    simp [computeAggregate, h0, ← List.sum_eq_foldl]
  · intro hv hodd
    have h0 : ¬ values.length = 0 := by simpa [List.length_eq_zero] using hv
    rw [computeAggregate_median_eq values h0, hms, hlen, if_pos (by omega)]
  · intro hv heven
    have h0 : ¬ values.length = 0 := by simpa [List.length_eq_zero] using hv
    rw [computeAggregate_median_eq values h0, hms, hlen, if_neg (by omega)]
  · norm_num [computeAggregate]
  · norm_num [computeAggregate]
  · rw [computeAggregate_median_eq _ (by norm_num), hms4]
    norm_num

/-- Witness for C8: the general description applied to the concrete
unsorted list [3, 1, 2] with ascending sort [1, 2, 3]. -/
theorem compute_aggregate_spec_witness :
    computeAggregate [3, 1, 2] .sum = ([3, 1, 2] : List ℚ).sum ∧
    computeAggregate [3, 1, 2] .median = ([1, 2, 3] : List ℚ).getD 1 0 :=
  ⟨(compute_aggregate_spec [3, 1, 2] [1, 2, 3] (by decide) (by decide)).1,
   (compute_aggregate_spec [3, 1, 2] [1, 2, 3] (by decide) (by decide)).2.2.1
     (by decide) (by decide)⟩

/-! ### Positional helpers for the column list -/

theorem find?_key_append (l1 : List ColumnConfig) (c : ColumnConfig)
    (l2 : List ColumnConfig) (key : String) (hkey : c.key = key)
    (hl1 : ¬ key ∈ l1.map (fun d => d.key)) :
    (l1 ++ c :: l2).find? (fun d => d.key = key) = some c := by
  induction l1 with
  | nil => simp [List.find?, hkey]
  | cons a as ih =>
    have ha : ¬ a.key = key := by
      intro h
      exact hl1 (by simp [h])
    have has : ¬ key ∈ as.map (fun d => d.key) := by
      intro h
      exact hl1 (by simp [h])
    rw [List.cons_append, List.find?_cons]
    simp only [ha, decide_False]
    exact ih has

theorem findIdx?_eq_length_pos (l1 : List String) (a : String) (l2 : List String)
    (h : ¬ a ∈ l1) :
    (l1 ++ a :: l2).findIdx? (fun k => k = a) = some l1.length := by
  induction l1 with
  | nil => simp [List.findIdx?_cons]
  | cons b bs ih =>
    have hb : ¬ b = a := fun hh => h (by simp [hh])
    have hbs : ¬ a ∈ bs := fun hh => h (by simp [hh])
    rw [List.cons_append, List.findIdx?_cons]
    simp [hb, List.findIdx?_succ, ih hbs]

theorem findIdx_eq_length (l1 : List String) (a : String) (l2 : List String)
    (h : ¬ a ∈ l1) :
    (l1 ++ a :: l2).findIdx (fun k => k = a) = l1.length := by
  induction l1 with
  | nil => simp [List.findIdx_cons]
  | cons b bs ih =>
    have hb : ¬ b = a := fun hh => h (by simp [hh])
    have hbs : ¬ a ∈ bs := fun hh => h (by simp [hh])
    rw [List.cons_append, List.findIdx_cons]
    simp [hb, ih hbs]

theorem findIdx?_eq_none_of_not_mem (l : List String) (a : String) (h : ¬ a ∈ l) :
    l.findIdx? (fun k => k = a) = none := by
  rw [List.findIdx?_eq_none_iff]
  intro x hx
  simp only [decide_eq_false_iff_not]
  intro hxa
  exact h (hxa ▸ hx)

theorem splice_after {α : Type} (l1 : List α) (c : α) (l2 : List α) (x : α) :
    (l1 ++ c :: l2).take (l1.length + 1) ++ x :: (l1 ++ c :: l2).drop (l1.length + 1)
      = l1 ++ c :: x :: l2 := by
  induction l1 with
  | nil => simp
  | cons a as ih => simpa using ih

theorem splice_before {α : Type} (l1 : List α) (c : α) (l2 : List α) (x : α) :
    (l1 ++ c :: l2).take l1.length ++ x :: (l1 ++ c :: l2).drop l1.length
      = l1 ++ x :: c :: l2 := by
  induction l1 with
  | nil => simp
  | cons a as ih =>
    simp only [List.length_cons, List.cons_append, List.take_succ_cons,
      List.drop_succ_cons]
    rw [ih]

theorem columnKeys_split (m : Model) (l1 : List ColumnConfig) (c : ColumnConfig)
    (l2 : List ColumnConfig) (key : String) (hcols : m.columns = l1 ++ c :: l2)
    (hkey : c.key = key) :
    columnKeys m = l1.map (fun d => d.key) ++ key :: l2.map (fun d => d.key) := by
  simp [columnKeys, hcols, hkey]

theorem not_mem_sides_of_nodup (m : Model) (l1 : List ColumnConfig) (c : ColumnConfig)
    (l2 : List ColumnConfig) (key : String) (hcols : m.columns = l1 ++ c :: l2)
    (hkey : c.key = key) (hnd : (columnKeys m).Nodup) :
    ¬ key ∈ l1.map (fun d => d.key) ∧ ¬ key ∈ l2.map (fun d => d.key) := by
  rw [columnKeys_split m l1 c l2 key hcols hkey] at hnd
  have hperm : List.Perm (l1.map (fun d => d.key) ++ key :: l2.map (fun d => d.key))
      (key :: (l1.map (fun d => d.key) ++ l2.map (fun d => d.key))) := List.perm_middle
  have h2 := hperm.nodup hnd
  rw [List.nodup_cons] at h2
  constructor
  · intro h
    exact h2.1 (List.mem_append.mpr (Or.inl h))
  · intro h
    exact h2.1 (List.mem_append.mpr (Or.inr h))

/-! ### C5 -/

/-- C5: a successful rename (trimmed non-empty, non-colliding name)
rewrites the column's key, type and options in place at the same
position; when the key changed, every row's value under the old key is
moved verbatim to the new key, the old entry disappears, and every
other column and row entry is untouched; when the key is unchanged the
rows are untouched entirely. -/
theorem rename_column_spec (m : Model) (l1 l2 : List ColumnConfig) (c : ColumnConfig)
    (oldKey input : String) (ty : ColumnType) (opts : List String)
    (hcols : m.columns = l1 ++ c :: l2) (hckey : c.key = oldKey)
    (hnd : (columnKeys m).Nodup)
    (hne : ¬ jsTrim input = "")
    (hfree : jsTrim input = oldKey ∨ ¬ jsTrim input ∈ columnKeys m) :
    (handleDialogSubmitEdit m oldKey input ty opts).columns
      = l1 ++ ⟨jsTrim input, ty, submittedOptions ty opts⟩ :: l2 ∧
    (jsTrim input = oldKey → (handleDialogSubmitEdit m oldKey input ty opts).rows = m.rows) ∧
    (¬ jsTrim input = oldKey →
      ∀ (i : ℕ) (row : Row), m.rows[i]? = some row →
        ∃ row', (handleDialogSubmitEdit m oldKey input ty opts).rows[i]? = some row' ∧
          (hasKey row oldKey → objGet row' (jsTrim input) = objGet row oldKey) ∧
          ¬ hasKey row' oldKey ∧
          (∀ k, ¬ k = oldKey → ¬ k = jsTrim input → objGet row' k = objGet row k)) := by
  have hguard : ¬ (jsTrim input ≠ oldKey ∧ jsTrim input ∈ columnKeys m) := by
    rintro ⟨ha, hb⟩
    rcases hfree with h | h
    · exact ha h
    · exact h hb
  obtain ⟨hl1, hl2⟩ := not_mem_sides_of_nodup m l1 c l2 oldKey hcols hckey hnd
  refine ⟨?_, ?_, ?_⟩
  · simp only [handleDialogSubmitEdit, hne, if_false, hguard]
    rw [hcols, List.map_append, List.map_cons]
    congr 1
    · refine (List.map_congr_left ?_).trans (List.map_id l1)
      intro a ha
      have : ¬ a.key = oldKey := by
        intro h
        exact hl1 (List.mem_map.mpr ⟨a, ha, h⟩)
      simp [this]
    · congr 1
      · by_cases hch : jsTrim input = oldKey
        · simp [hckey, hch]
        · simp [hckey, hch]
      · apply (List.map_congr_left _).trans (List.map_id l2)
        intro a ha
        have : ¬ a.key = oldKey := by
          intro h
          exact hl2 (List.mem_map.mpr ⟨a, ha, h⟩)
        simp [this]
  · intro hch
    simp only [handleDialogSubmitEdit, if_neg hne, if_neg hguard]
    simp [hch]
  · intro hch
    have hrows : (handleDialogSubmitEdit m oldKey input ty opts).rows
        = m.rows.map (fun row =>
            objSet (objDelete row oldKey) (jsTrim input) ((objGet row oldKey).getD .null)) := by
      simp only [handleDialogSubmitEdit, if_neg hne, if_neg hguard]
      simp [hch]
    intro i row hi
    refine ⟨objSet (objDelete row oldKey) (jsTrim input) ((objGet row oldKey).getD .null),
      ?_, ?_, ?_, ?_⟩
    · rw [hrows, List.getElem?_map, hi, Option.map_some']
    · intro hk
      rcases objGet_isSome_of_hasKey row oldKey hk with ⟨w, hw⟩
      rw [objGet_objSet_self, hw, Option.getD_some]
    · intro hcontra
      rcases (hasKey_objSet _ _ _ _).mp hcontra with h | h
      · exact hch h.symm
      · exact ((hasKey_objDelete _ _ _).mp h).2 rfl
    · intro k hk1 hk2
      rw [objGet_objSet_ne _ _ _ _ hk2, objGet_objDelete_ne _ _ _ hk1]

/-- Witness for C5: renaming status to state on the demo model moves the
row value and removes the status entry. -/
theorem rename_column_spec_witness :
    (handleDialogSubmitEdit demoModel "status" "state" .text []).columns
      = [⟨"state", .text, none⟩, ⟨"email", .email, none⟩, ⟨"amount", .currency, none⟩] ∧
    ∃ row', (handleDialogSubmitEdit demoModel "status" "state" .text []).rows[0]?
        = some row' ∧ objGet row' "state" = some (.str "pending") ∧ ¬ hasKey row' "status" := by
  have h := rename_column_spec demoModel [] [⟨"email", .email, none⟩, ⟨"amount", .currency, none⟩]
    ⟨"status", .text, none⟩ "status" "state" .text [] (by decide) (by decide) (by decide)
    (by decide) (Or.inr (by decide))
  refine ⟨by rw [h.1]; decide, ?_⟩
  rcases h.2.2 (by decide) 0 demoRow (by decide) with ⟨row', hrow', hmove, hgone, _⟩
  refine ⟨row', hrow', ?_, hgone⟩
  have hm := hmove (by decide)
  rw [show jsTrim "state" = "state" from rfl] at hm
  rw [hm]
  decide

/-! ### C6 -/

/-- C6: a successful insert (trimmed non-empty, non-colliding name)
places the new column at the anchor's index for side left and at the
anchor's index plus one for side right, appends at the end when the
anchor is empty or absent, and gives every row an entry for the new key
holding the type's default value, leaving all other entries unchanged;
the demo instance is checked by the witness. -/
theorem insert_column_spec (m : Model) (anchor : String) (side : Side) (input : String)
    (ty : ColumnType) (opts : List String)
    (hne : ¬ jsTrim input = "") (hfree : ¬ jsTrim input ∈ columnKeys m) :
    (∀ (l1 l2 : List ColumnConfig) (c : ColumnConfig), m.columns = l1 ++ c :: l2 →
      c.key = anchor → ¬ anchor ∈ l1.map (fun d => d.key) → ¬ anchor = "" →
      (handleDialogSubmitInsert m anchor side input ty opts).columns =
        (if side = .left
         then l1 ++ ⟨jsTrim input, ty, submittedOptions ty opts⟩ :: c :: l2
         else l1 ++ c :: ⟨jsTrim input, ty, submittedOptions ty opts⟩ :: l2)) ∧
    ((anchor = "" ∨ ¬ anchor ∈ columnKeys m) →
      (handleDialogSubmitInsert m anchor side input ty opts).columns =
        m.columns ++ [⟨jsTrim input, ty, submittedOptions ty opts⟩]) ∧
    (∀ (i : ℕ) (row : Row), m.rows[i]? = some row →
      ∃ row', (handleDialogSubmitInsert m anchor side input ty opts).rows[i]? = some row' ∧
        objGet row' (jsTrim input) = some (getDefaultValue ty) ∧
        (∀ k, ¬ k = jsTrim input → objGet row' k = objGet row k)) := by
  refine ⟨?_, ?_, ?_⟩
  · intro l1 l2 c hcols hckey hanchor1 hanchor2
    have hsplit : columnKeys m = l1.map (fun d => d.key) ++ anchor :: l2.map (fun d => d.key) :=
      columnKeys_split m l1 c l2 anchor hcols hckey
    have hidx : (columnKeys m).findIdx? (fun k => k = anchor)
        = some (l1.map (fun d => d.key)).length := by
      rw [hsplit]
      exact findIdx?_eq_length_pos _ anchor _ hanchor1
    simp only [handleDialogSubmitInsert, hne, if_false, hfree, hanchor2, hidx]
    cases side with
    | left =>
      simp only [if_pos rfl, List.length_map, if_true]
      rw [hcols, splice_before l1 c l2]
    | right =>
      have hns : ¬ (Side.right = Side.left) := by decide
      simp only [hns, if_false]
      rw [List.length_map, hcols, splice_after l1 c l2]
  · intro hanchor
    have hidx : (if anchor = "" then none
        else (columnKeys m).findIdx? (fun k => k = anchor)) = (none : Option ℕ) := by
      rcases hanchor with h | h
      · simp [h]
      · by_cases h0 : anchor = ""
        · simp [h0]
        · simp only [h0, if_false]
          exact findIdx?_eq_none_of_not_mem _ anchor h
    simp only [handleDialogSubmitInsert, hne, if_false, hfree, hidx]
    have hlen : (columnKeys m).length = m.columns.length := by
      simp [columnKeys]
    rw [hlen, List.take_length, List.drop_length]
  · have hrows : (handleDialogSubmitInsert m anchor side input ty opts).rows
        = m.rows.map (fun row => objSet row (jsTrim input) (getDefaultValue ty)) := by
      simp [handleDialogSubmitInsert, hne, hfree]
    intro i row hi
    refine ⟨objSet row (jsTrim input) (getDefaultValue ty), ?_, ?_, ?_⟩
    · rw [hrows, List.getElem?_map, hi, Option.map_some']
    · exact objGet_objSet_self row (jsTrim input) (getDefaultValue ty)
    · intro k hk
      exact objGet_objSet_ne row (jsTrim input) k (getDefaultValue ty) hk

/-- Witness for C6: inserting Phone of type phone right of email on the
demo columns [status, email, amount] yields [status, email, Phone,
amount], and the demo row gets a Phone entry holding the empty
string. -/
theorem insert_column_spec_witness :
    (handleDialogSubmitInsert demoModel "email" .right "Phone" .phone []).columns
      = [⟨"status", .text, none⟩, ⟨"email", .email, none⟩, ⟨"Phone", .phone, none⟩,
         ⟨"amount", .currency, none⟩] ∧
    ∃ row', (handleDialogSubmitInsert demoModel "email" .right "Phone" .phone []).rows[0]?
        = some row' ∧ objGet row' "Phone" = some (.str "") := by
  have h := insert_column_spec demoModel "email" .right "Phone" .phone []
    (by decide) (by decide)
  constructor
  · rw [h.1 [⟨"status", .text, none⟩] [⟨"amount", .currency, none⟩] ⟨"email", .email, none⟩
      (by decide) (by decide) (by decide) (by decide)]
    decide
  · rcases h.2.2 0 demoRow (by decide) with ⟨row', hrow', hnew, _⟩
    refine ⟨row', hrow', ?_⟩
    rw [show jsTrim "Phone" = "Phone" from rfl] at hnew
    rw [hnew]
    decide

/-! ### C3 -/

theorem onDuplicate_success (m : Model) (l1 l2 : List ColumnConfig) (c : ColumnConfig)
    (key : String) (hcols : m.columns = l1 ++ c :: l2) (hckey : c.key = key)
    (hl1 : ¬ key ∈ l1.map (fun d => d.key)) :
    onDuplicate m key = { m with
      columns := l1 ++ c :: { c with key := dupName (columnKeys m) key } :: l2,
      rows := m.rows.map (fun row => objSet row (dupName (columnKeys m) key)
        (jsNullish (objGet row key) (getDefaultValue c.type))) } := by
  have hfind : m.columns.find? (fun d => d.key = key) = some c := by
    rw [hcols]
    exact find?_key_append l1 c l2 key hckey hl1
  have hidx : (columnKeys m).findIdx (fun k => k = key) = l1.length := by
    rw [columnKeys_split m l1 c l2 key hcols hckey]
    have h := findIdx_eq_length (l1.map fun d => d.key) key (l2.map fun d => d.key) hl1
    simpa using h
  unfold onDuplicate
  rw [hfind]
  dsimp only
  have hcols2 : m.columns.take ((columnKeys m).findIdx (fun k => k = key) + 1)
      ++ { c with key := dupName (columnKeys m) key }
        :: m.columns.drop ((columnKeys m).findIdx (fun k => k = key) + 1)
      = l1 ++ c :: { c with key := dupName (columnKeys m) key } :: l2 := by
    rw [hidx, hcols, splice_after l1 c l2]
  rw [hcols2]

/-- Counterexample for C3: on a model whose single column is amount,
duplicating amount twice yields the left-to-right order amount,
amount (copy 2), amount (copy) — the second copy is inserted immediately
right of amount and therefore left of the first copy, not right of it as
the claim orders them. -/
theorem duplicate_twice_order_counterexample :
    columnKeys (onDuplicate (onDuplicate ⟨[⟨"amount", .currency, none⟩],
        [[("id", .str "r1"), ("amount", .num 100)]], []⟩ "amount") "amount")
      = ["amount", "amount (copy 2)", "amount (copy)"] ∧
    ¬ columnKeys (onDuplicate (onDuplicate ⟨[⟨"amount", .currency, none⟩],
        [[("id", .str "r1"), ("amount", .num 100)]], []⟩ "amount") "amount")
      = ["amount", "amount (copy)", "amount (copy 2)"] := by
  decide

/-- C3 amended: starting from a model with distinct column keys
containing a column named amount and no column named amount (copy) or
amount (copy 2), duplicating amount twice yields the columns amount,
amount (copy 2), amount (copy) in that left-to-right order (each copy is
inserted immediately right of amount at duplication time, so the second
copy lands left of the first); each copy carries the source's type and
options, and every row's value for each new key is copied from its
value under amount (with the type's default substituted when that value is
absent or null). -/
theorem duplicate_twice_amended (m : Model) (l1 l2 : List ColumnConfig)
    (c : ColumnConfig) (hcols : m.columns = l1 ++ c :: l2) (hckey : c.key = "amount")
    (hnd : (columnKeys m).Nodup)
    (h1 : ¬ "amount (copy)" ∈ columnKeys m)
    (h2 : ¬ "amount (copy 2)" ∈ columnKeys m) :
    (onDuplicate (onDuplicate m "amount") "amount").columns
      = l1 ++ c :: { c with key := "amount (copy 2)" }
          :: { c with key := "amount (copy)" } :: l2 ∧
    (∀ (i : ℕ) (row : Row), m.rows[i]? = some row →
      ∃ row', (onDuplicate (onDuplicate m "amount") "amount").rows[i]? = some row' ∧
        objGet row' "amount (copy)"
          = some (jsNullish (objGet row "amount") (getDefaultValue c.type)) ∧
        objGet row' "amount (copy 2)"
          = some (jsNullish (objGet row "amount") (getDefaultValue c.type))) := by
  obtain ⟨hl1, hl2⟩ := not_mem_sides_of_nodup m l1 c l2 "amount" hcols hckey hnd
  have hname1 : dupName (columnKeys m) "amount" = "amount (copy)" :=
    dupName_eq_copy (columnKeys m) "amount" h1
  have hm1 := onDuplicate_success m l1 l2 c "amount" hcols hckey hl1
  rw [hname1] at hm1
  have hm1cols : (onDuplicate m "amount").columns
      = l1 ++ c :: { c with key := "amount (copy)" } :: l2 := by rw [hm1]
  have hm1keys : columnKeys (onDuplicate m "amount")
      = l1.map (fun d => d.key) ++ "amount" :: "amount (copy)" :: l2.map (fun d => d.key) := by
    simp [columnKeys, hm1cols, hckey]
  have hmemkeys : ∀ s : String, s ∈ columnKeys m ↔
      (s ∈ l1.map (fun d => d.key) ∨ s = "amount" ∨ s ∈ l2.map (fun d => d.key)) := by
    intro s
    rw [columnKeys_split m l1 c l2 "amount" hcols hckey]
    simp
  have hcopy_mem : "amount (copy)" ∈ columnKeys (onDuplicate m "amount") := by
    rw [hm1keys]
    simp
  have hcopy2_free : ¬ "amount (copy 2)" ∈ columnKeys (onDuplicate m "amount") := by
    rw [hm1keys]
    intro hmem
    simp only [List.mem_append, List.mem_cons] at hmem
    rcases hmem with h | h | h | h
    · exact h2 ((hmemkeys _).mpr (Or.inl h))
    · exact absurd h (by decide)
    · exact absurd h (by decide)
    · exact h2 ((hmemkeys _).mpr (Or.inr (Or.inr h)))
  have hname2 : dupName (columnKeys (onDuplicate m "amount")) "amount" = "amount (copy 2)" :=
    dupName_eq_copy2 _ "amount" hcopy_mem hcopy2_free
  have hm2 := onDuplicate_success (onDuplicate m "amount") l1
    ({ c with key := "amount (copy)" } :: l2) c "amount" hm1cols hckey hl1
  rw [hname2] at hm2
  constructor
  · rw [hm2]
  · intro i row hi
    have hrows1 : (onDuplicate m "amount").rows
        = m.rows.map (fun row => objSet row "amount (copy)"
            (jsNullish (objGet row "amount") (getDefaultValue c.type))) := by rw [hm1]
    have hrows2 : (onDuplicate (onDuplicate m "amount") "amount").rows
        = (onDuplicate m "amount").rows.map (fun row => objSet row "amount (copy 2)"
            (jsNullish (objGet row "amount") (getDefaultValue c.type))) := by rw [hm2]
    refine ⟨objSet (objSet row "amount (copy)"
        (jsNullish (objGet row "amount") (getDefaultValue c.type))) "amount (copy 2)"
        (jsNullish (objGet row "amount") (getDefaultValue c.type)), ?_, ?_, ?_⟩
    · rw [hrows2, List.getElem?_map, hrows1, List.getElem?_map, hi]
      simp only [Option.map_some']
      have hpres : objGet (objSet row "amount (copy)"
          (jsNullish (objGet row "amount") (getDefaultValue c.type))) "amount"
          = objGet row "amount" :=
        objGet_objSet_ne row "amount (copy)" "amount" _ (by decide)
      rw [hpres]
    · rw [objGet_objSet_ne _ _ _ _ (by decide), objGet_objSet_self]
    · rw [objGet_objSet_self]

/-- Witness for C3 (amended): duplicating amount twice on the demo
model yields amount, amount (copy 2), amount (copy) after email and
status, with both copies holding the row's amount value 100. -/
theorem duplicate_twice_amended_witness :
    (onDuplicate (onDuplicate demoModel "amount") "amount").columns
      = [⟨"status", .text, none⟩, ⟨"email", .email, none⟩, ⟨"amount", .currency, none⟩,
         ⟨"amount (copy 2)", .currency, none⟩, ⟨"amount (copy)", .currency, none⟩] ∧
    ∃ row', (onDuplicate (onDuplicate demoModel "amount") "amount").rows[0]? = some row' ∧
      objGet row' "amount (copy)" = some (.num 100) ∧
      objGet row' "amount (copy 2)" = some (.num 100) := by
  have h := duplicate_twice_amended demoModel
    [⟨"status", .text, none⟩, ⟨"email", .email, none⟩] [] ⟨"amount", .currency, none⟩
    (by decide) (by decide) (by decide) (by decide) (by decide)
  constructor
  · rw [h.1]
    decide
  · rcases h.2 0 demoRow (by decide) with ⟨row', hrow', hget1, hget2⟩
    refine ⟨row', hrow', ?_, ?_⟩
    · rw [hget1]
      decide
    · rw [hget2]
      decide

/-! ### C4 -/

/-- Counterexample for C4: quick-adding a select column does not add a
column at all (it opens the insert dialog instead), and on a model
already holding a column named Text 2 two text quick-adds produce the
names Text and Text 3, not Text and Text 2. -/
theorem quick_add_counterexample :
    handleQuickAdd ⟨[⟨"status", .text, none⟩], [], []⟩ .select
      = ⟨[⟨"status", .text, none⟩], [], []⟩ ∧
    columnKeys (handleQuickAdd (handleQuickAdd
        ⟨[⟨"Text 2", .text, none⟩], [], []⟩ .text) .text)
      = ["Text 2", "Text", "Text 3"] := by
  decide

/-- C4 amended: for every non-select column type, quick-add generates a
unique name starting from the type's display label (the label itself
when free, otherwise the label followed by a space and a counter from
2), appends the new column at the end, and sets every row's entry under
the new key to the type's default value; quick-add of select leaves the
model untouched (it only opens the insert dialog); and two text
quick-adds on a model holding neither a Text nor a Text 2 column name
the new columns Text and then Text 2 at the end of the order. -/
theorem quick_add_amended (m : Model) (ty : ColumnType) (hty : ¬ ty = .select) :
    (handleQuickAdd m ty).columns
      = m.columns ++ [⟨quickName (columnKeys m) (COLUMN_TYPE_LABELS ty), ty, none⟩] ∧
    ¬ quickName (columnKeys m) (COLUMN_TYPE_LABELS ty) ∈ columnKeys m ∧
    (¬ COLUMN_TYPE_LABELS ty ∈ columnKeys m →
      quickName (columnKeys m) (COLUMN_TYPE_LABELS ty) = COLUMN_TYPE_LABELS ty) ∧
    (quickName (columnKeys m) (COLUMN_TYPE_LABELS ty) = COLUMN_TYPE_LABELS ty ∨
      ∃ i, 2 ≤ i ∧ quickName (columnKeys m) (COLUMN_TYPE_LABELS ty)
        = COLUMN_TYPE_LABELS ty ++ " " ++ Nat.repr i) ∧
    (∀ (i : ℕ) (row : Row), m.rows[i]? = some row →
      ∃ row', (handleQuickAdd m ty).rows[i]? = some row' ∧
        objGet row' (quickName (columnKeys m) (COLUMN_TYPE_LABELS ty))
          = some (getDefaultValue ty) ∧
        (∀ k, ¬ k = quickName (columnKeys m) (COLUMN_TYPE_LABELS ty) →
          objGet row' k = objGet row k)) ∧
    handleQuickAdd m .select = m ∧
    (∀ m' : Model, ¬ "Text" ∈ columnKeys m' → ¬ "Text 2" ∈ columnKeys m' →
      columnKeys (handleQuickAdd (handleQuickAdd m' .text) .text)
        = columnKeys m' ++ ["Text", "Text 2"]) := by
  refine ⟨by simp [handleQuickAdd, hty], quickName_not_mem _ _,
    quickName_eq_label _ _, ?_, ?_, by simp [handleQuickAdd], ?_⟩
  · rcases firstFreshAux_is_cand (columnKeys m) (quickCandidate (COLUMN_TYPE_LABELS ty))
      ((columnKeys m).length + 1) 0 with ⟨i, hi⟩
    cases i with
    | zero => exact Or.inl hi
    | succ j => exact Or.inr ⟨j + 2, by omega, hi⟩
  · have hrows : (handleQuickAdd m ty).rows
        = m.rows.map (fun row => objSet row
            (quickName (columnKeys m) (COLUMN_TYPE_LABELS ty)) (getDefaultValue ty)) := by
      simp [handleQuickAdd, hty]
    intro i row hi
    refine ⟨objSet row (quickName (columnKeys m) (COLUMN_TYPE_LABELS ty))
      (getDefaultValue ty), ?_, objGet_objSet_self _ _ _, ?_⟩
    · rw [hrows, List.getElem?_map, hi, Option.map_some']
    · intro k hk
      exact objGet_objSet_ne _ _ _ _ hk
  · intro m' hT hT2
    have hname1 : quickName (columnKeys m') (COLUMN_TYPE_LABELS .text) = "Text" :=
      quickName_eq_label _ _ hT
    have hcols1 : (handleQuickAdd m' .text).columns
        = m'.columns ++ [⟨"Text", .text, none⟩] := by
      rw [show (⟨"Text", ColumnType.text, none⟩ : ColumnConfig)
        = ⟨quickName (columnKeys m') (COLUMN_TYPE_LABELS .text), .text, none⟩ from by
          rw [hname1]]
      simp [handleQuickAdd]
    have hkeys1 : columnKeys (handleQuickAdd m' .text) = columnKeys m' ++ ["Text"] := by
      simp [columnKeys, hcols1]
    have hmem1 : ("Text" : String) ∈ columnKeys (handleQuickAdd m' .text) := by
      rw [hkeys1]
      simp
    have hfree2 : ¬ ("Text" ++ " 2" : String) ∈ columnKeys (handleQuickAdd m' .text) := by
      rw [hkeys1, show ("Text" ++ " 2" : String) = "Text 2" from rfl]
      intro hmem
      rcases List.mem_append.mp hmem with h | h
      · exact hT2 h
      · exact absurd (List.mem_singleton.mp h) (by decide)
    have hname2 : quickName (columnKeys (handleQuickAdd m' .text))
        (COLUMN_TYPE_LABELS .text) = "Text 2" := by
      have h := quickName_eq_second (columnKeys (handleQuickAdd m' .text)) "Text" hmem1 hfree2
      rw [show ("Text" ++ " 2" : String) = "Text 2" from rfl] at h
      exact h
    have hcols2 : (handleQuickAdd (handleQuickAdd m' .text) .text).columns
        = (handleQuickAdd m' .text).columns ++ [⟨"Text 2", .text, none⟩] := by
      rw [show (⟨"Text 2", ColumnType.text, none⟩ : ColumnConfig)
        = ⟨quickName (columnKeys (handleQuickAdd m' .text)) (COLUMN_TYPE_LABELS .text),
           .text, none⟩ from by rw [hname2]]
      simp [handleQuickAdd]
    simp [columnKeys, hcols2, hcols1]

/-- Witness for C4 (amended): a text quick-add on the demo model appends
a column named Text, and two text quick-adds name the new columns Text
and Text 2. -/
theorem quick_add_amended_witness :
    (handleQuickAdd demoModel .text).columns
      = demoColumns ++ [⟨"Text", .text, none⟩] ∧
    columnKeys (handleQuickAdd (handleQuickAdd demoModel .text) .text)
      = columnKeys demoModel ++ ["Text", "Text 2"] := by
  have h := quick_add_amended demoModel .text (by decide)
  constructor
  · rw [h.1]
    decide
  · exact h.2.2.2.2.2.2 demoModel (by decide) (by decide)
